/-
Verification of the BigQuery value-set materialization engine
(`google/fhir/views/bigquery_value_set_manager.py`).

The manager's orchestration (`BigQueryValueSetManager.__init__`, the
`value_set_codes_table` property, `_create_valueset_codes_table_if_not_exists`,
`materialize_value_sets` and `materialize_value_set_expansion`) is embedded
directly from the source.  The insert-statement builder
`value_set_tables.valueset_codes_insert_statement_for` (deduplication,
batching into insert statements, and the insert-select filtering against
rows already in the table) lives in `google.fhir.r4.terminology.value_set_tables`,
which is part of this repository but not among the provided sources; it is
modelled from the spec where so noted.

External collaborators (the BigQuery client and table references) are
modelled at their interface boundary: a table is a schema, clustering
fields and a list of rows; executing one rendered insert statement appends
exactly the batch rows not already present in the table.
-/
import Mathlib

/-- One expanded code row, the 4-tuple persisted to the valueset_codes table.
`valuesetversion` is nullable, the other columns are required. -/
structure CodeRow where
  valueseturi : String
  valuesetversion : Option String
  system : String
  code : String
deriving DecidableEq, Repr

/-- A FHIR ValueSet proto as consumed by the engine: its `url`, optional
`version`, and the `(system, code)` pairs of `expansion.contains`. -/
structure ValueSet where
  url : String
  version : Option String
  codes : List (String × String)
deriving DecidableEq, Repr

/-- The code rows contributed by one ValueSet: one row per `(system, code)`
pair of its expansion, tagged with the ValueSet's url and version. -/
def ValueSet.rows (vs : ValueSet) : List CodeRow :=
  vs.codes.map fun sc => ⟨vs.url, vs.version, sc.1, sc.2⟩

/-- A BigQuery schema field as passed to `bigquery.SchemaField(name, type, mode)`. -/
structure SchemaField where
  name : String
  fieldType : String
  mode : String
deriving DecidableEq, Repr

/-- The state of the target table inside the warehouse: its schema, its
clustering fields, and the rows it currently holds (append-only). -/
structure BQTable where
  schema : List SchemaField
  clustering_fields : List String
  rows : List CodeRow
deriving DecidableEq, Repr

/-- The four-column schema built in `_create_valueset_codes_table_if_not_exists`:
`valueseturi STRING REQUIRED`, `valuesetversion STRING NULLABLE`,
`system STRING REQUIRED`, `code STRING REQUIRED`. -/
def valuesetCodesSchema : List SchemaField :=
  [⟨"valueseturi", "STRING", "REQUIRED"⟩,
   ⟨"valuesetversion", "STRING", "NULLABLE"⟩,
   ⟨"system", "STRING", "REQUIRED"⟩,
   ⟨"code", "STRING", "REQUIRED"⟩]

/-- A resolved BigQuery table reference (project, dataset, table). -/
structure TableRef where
  project : String
  dataset_id : String
  table_id : String
deriving DecidableEq, Repr

/-- The `value_set_codes_table` argument of `__init__`: either an already
resolved table/reference or a string to be parsed. -/
inductive TableRefInput where
  | ref : TableRef → TableRefInput
  | str : String → TableRefInput
deriving DecidableEq, Repr

/-- Modelled from the spec: `bigquery.table.TableReference.from_string`, an
external collaborator: "a table identity (string or resolved reference),
resolved against a default project/namespace if partially qualified".
A `project.dataset.table` string is taken verbatim; a `dataset.table`
string is completed with the client's default project. -/
def TableRef.from_string (s : String) (default_project : String) : TableRef :=
  match s.splitOn "." with
  | [p, d, t] => ⟨p, d, t⟩
  | [d, t] => ⟨default_project, d, t⟩
  | _ => ⟨default_project, "", s⟩

/-- The manager object: the client's default project and the private
`_value_set_codes_table` reference fixed in `__init__`.  Here
`value_set_codes_table` is the stored field; the public property is
`value_set_codes_table_property` below. -/
structure BigQueryValueSetManager where
  client_project : String
  value_set_codes_table : TableRef
deriving DecidableEq, Repr

/-- `BigQueryValueSetManager.__init__`: a string table identity is resolved
against the client's default project via `TableReference.from_string`;
an already-resolved reference is stored as given. -/
def BigQueryValueSetManager.init (client_project : String)
    (value_set_codes_table : TableRefInput) : BigQueryValueSetManager :=
  match value_set_codes_table with
  | .str s => ⟨client_project, TableRef.from_string s client_project⟩
  | .ref r => ⟨client_project, r⟩

/-- The `value_set_codes_table` property: returns `self._value_set_codes_table`. -/
def BigQueryValueSetManager.value_set_codes_table_property
    (m : BigQueryValueSetManager) : TableRef :=
  m.value_set_codes_table

/-- `_create_valueset_codes_table_if_not_exists`, composed with the warehouse's
`create_table(table, exists_ok=True)` semantics: if the table is absent it is
created with the four-column schema and clustering fields
`['valueseturi', 'code']` and no rows; if present it is returned unchanged. -/
def create_valueset_codes_table_if_not_exists : Option BQTable → BQTable
  | some t => t
  | none => ⟨valuesetCodesSchema, ["valueseturi", "code"], []⟩

/-- Executing one rendered insert statement: the insert-select constructed by
the builder appends exactly the batch rows not already present in the table
(set difference against existing `(valueseturi, valuesetversion, system, code)`
tuples); existing rows are never rewritten. -/
def insertBatch (t : BQTable) (batch : List CodeRow) : BQTable :=
  { t with rows := t.rows ++ batch.filter fun r => decide (r ∉ t.rows) }

/-- Modelled from the spec: the global deduplication performed by the builder
in `value_set_tables` (not under the provided sources): of rows equal on all
four columns, only the first occurrence is kept, so "duplicate rows appearing
twice in the same input are ... collapsed to one physical row before
insertion".  `seen` accumulates the rows already emitted upstream. -/
def freshRows (seen : List CodeRow) : List CodeRow → List CodeRow
  | [] => []
  | r :: rs => if r ∈ seen then freshRows seen rs else r :: freshRows (r :: seen) rs

/-- Modelled from the spec: partitioning the deduplicated row stream into
"Batches of at most `batch_size` rows, preserving arrival order within a
batch" (`value_set_tables` is not under the provided sources). -/
def chunksOf (B : Nat) (l : List CodeRow) : List (List CodeRow) :=
  if hl : l = [] then []
  else if hB : B = 0 then [l]
  else l.take B :: chunksOf B (l.drop B)
termination_by l.length
decreasing_by
  simp only [List.length_drop]
  have hpos : 0 < l.length := List.length_pos.mpr hl
  omega

/-- The observable events of one materialization run, in program order:
the single provisioning call, each executed insert query (with the rows of
its batch), and each expansion request made to the expander. -/
inductive Event where
  | createTableCall : Event
  | insertQuery : List CodeRow → Event
  | expandUrl : String → Event
  | expandUrlUsingService : String → String → Event
deriving DecidableEq, Repr

/-- Whether an event is an executed insert query. -/
def Event.isInsert : Event → Bool
  | .insertQuery _ => true
  | _ => false

/-- Whether an event is a call into the expander. -/
def Event.isExpand : Event → Bool
  | .expandUrl _ => true
  | .expandUrlUsingService _ _ => true
  | _ => false

/-- The batches of the insert queries executed in a trace, in order. -/
def insertedBatches (trace : List Event) : List (List CodeRow) :=
  trace.filterMap fun e =>
    match e with
    | .insertQuery b => some b
    | _ => none

/-- The expander calls of a trace, in order. -/
def expandCalls (trace : List Event) : List Event :=
  trace.filter Event.isExpand

/-- The lazy pipeline of `materialize_value_sets`: the builder's generator of
insert statements composed with the `for query in queries:
self._client.query(query_string).result()` loop.  The input iterable is a
list of items, each pairing the events emitted when the item is pulled (for
`materialize_value_set_expansion`, one expander call) with the ValueSet it
yields.  `buffer` holds rows produced but not yet batched, `seen` the rows
already emitted (for global deduplication, modelled from the spec), `k` the
index of the next insert query, and `t` the current table.  `failAt = some j`
makes the `j`-th insert query raise; the returned flag is `false` exactly
when a query failed.  Each batch is fully executed before the next item is
pulled, mirroring the generator pipeline's laziness. -/
def lazyRun (B : Nat) (failAt : Option Nat)
    (items : List (List Event × ValueSet)) (buffer seen : List CodeRow)
    (k : Nat) (t : BQTable) : List Event × BQTable × Bool :=
  if hB : B = 0 then ([], t, true)
  else if hbuf : B ≤ buffer.length then
    if failAt = some k then ([Event.insertQuery (buffer.take B)], t, false)
    else
      let out := lazyRun B failAt items (buffer.drop B) seen (k + 1)
        (insertBatch t (buffer.take B))
      (Event.insertQuery (buffer.take B) :: out.1, out.2)
  else
    match items with
    | [] =>
        if buffer = [] then ([], t, true)
        else if failAt = some k then ([Event.insertQuery buffer], t, false)
        else ([Event.insertQuery buffer], insertBatch t buffer, true)
    | p :: rest =>
        let out := lazyRun B failAt rest (buffer ++ freshRows seen p.2.rows)
          (seen ++ freshRows seen p.2.rows) k t
        (p.1 ++ out.1, out.2)
termination_by (items.length, buffer.length)
decreasing_by
  all_goals
    first
    | (apply Prod.Lex.right; try simp only [List.length_drop]; omega)
    | (apply Prod.Lex.left; try simp only [List.length_cons]; omega)
    | (simp_wf
       first
       | omega
       | (apply Prod.Lex.right; try simp only [List.length_drop]; omega)
       | (apply Prod.Lex.left; try simp only [List.length_cons]; omega)
       | (try simp only [List.length_drop, List.length_cons]; omega))

/-- The result of one materialization call: its event trace, the final state
of the target table, whether it completed without error, and the manager
object after the call (the method bodies never assign to `self`). -/
structure MatResult where
  trace : List Event
  table : BQTable
  ok : Bool
  self : BigQueryValueSetManager
deriving Repr

/-- Common body of both public operations: provision the table once, then
run the lazy builder/execution pipeline over the item stream. -/
def materialize_items (m : BigQueryValueSetManager) (failAt : Option Nat)
    (st : Option BQTable) (items : List (List Event × ValueSet)) (B : Nat) :
    MatResult :=
  let t := create_valueset_codes_table_if_not_exists st
  let out := lazyRun B failAt items [] [] 0 t
  ⟨Event.createTableCall :: out.1, out.2.1, out.2.2, m⟩

/-- `materialize_value_sets`: the input iterable yields already-expanded
ValueSets, so pulling an item emits no expander event. -/
def materialize_value_sets (m : BigQueryValueSetManager) (failAt : Option Nat)
    (st : Option BQTable) (value_set_protos : List ValueSet) (B : Nat) :
    MatResult :=
  materialize_items m failAt st
    (value_set_protos.map fun vs => (([] : List Event), vs)) B

/-- The `expander` argument of `materialize_value_set_expansion`: either a
`TerminologyServiceClient` (with its `expand_value_set_url_using_service`
and `expand_value_set_url` methods) or a `ValueSetResolver` (with its
`expand_value_set_url` method). -/
inductive Expander where
  | terminologyServiceClient
      (expand_value_set_url_using_service : String → String → ValueSet)
      (expand_value_set_url : String → ValueSet)
  | valueSetResolver (expand_value_set_url : String → ValueSet)

/-- `isinstance(expander, terminology_service_client.TerminologyServiceClient)`. -/
def Expander.isTerminologyServiceClient : Expander → Bool
  | .terminologyServiceClient _ _ => true
  | .valueSetResolver _ => false

/-- `materialize_value_set_expansion`: raises `TypeError` (result `none`,
nothing executed) when a `terminology_service_url` is given but the expander
is not a `TerminologyServiceClient`; otherwise builds the lazy generator of
expanded ValueSets — via `expand_value_set_url_using_service(url, service_url)`
when both a service url and a service client are given, else via
`expand_value_set_url(url)` — and delegates to `materialize_value_sets`. -/
def materialize_value_set_expansion (m : BigQueryValueSetManager)
    (failAt : Option Nat) (st : Option BQTable) (urls : List String)
    (expander : Expander) (terminology_service_url : Option String)
    (B : Nat) : Option MatResult :=
  if terminology_service_url.isSome && !expander.isTerminologyServiceClient then
    none
  else
    let items :=
      match terminology_service_url, expander with
      | some su, .terminologyServiceClient fsvc _ =>
          urls.map fun u => ([Event.expandUrlUsingService u su], fsvc u su)
      | _, .terminologyServiceClient _ f =>
          urls.map fun u => ([Event.expandUrl u], f u)
      | _, .valueSetResolver f =>
          urls.map fun u => ([Event.expandUrl u], f u)
    some (materialize_items m failAt st items B)

/-- All code rows of a list of ValueSets, in arrival order. -/
def allRows (vss : List ValueSet) : List CodeRow :=
  (vss.map ValueSet.rows).flatten

/-- The code rows of an item stream, in arrival order. -/
def itemsRows (items : List (List Event × ValueSet)) : List CodeRow :=
  (items.map fun p => p.2.rows).flatten

/-- Executing a list of batches in order against a table. -/
def applyBatches (t : BQTable) (bs : List (List CodeRow)) : BQTable :=
  bs.foldl insertBatch t

/-! ### Properties of the deduplicated row stream -/

theorem freshRows_congr : ∀ (l : List CodeRow) {s₁ s₂ : List CodeRow},
    (∀ x, x ∈ s₁ ↔ x ∈ s₂) → freshRows s₁ l = freshRows s₂ l
  | [], _, _, _ => rfl
  | r :: rs, s₁, s₂, h => by
    simp only [freshRows]
    by_cases hr : r ∈ s₁
    · rw [if_pos hr, if_pos ((h r).mp hr), freshRows_congr rs h]
    · rw [if_neg hr, if_neg (fun c => hr ((h r).mpr c)),
        @freshRows_congr rs (r :: s₁) (r :: s₂) ?_]
      intro x
      simp only [List.mem_cons, h x]

theorem freshRows_append (l₁ : List CodeRow) : ∀ (l₂ s : List CodeRow),
    freshRows s (l₁ ++ l₂) = freshRows s l₁ ++ freshRows (s ++ freshRows s l₁) l₂ := by
  induction l₁ with
  | nil =>
    intro l₂ s
    simp [freshRows]
  | cons r rs ih =>
    intro l₂ s
    simp only [List.cons_append, freshRows, List.append_eq]
    by_cases hr : r ∈ s
    · rw [if_pos hr, if_pos hr, ih]
    · rw [if_neg hr, if_neg hr, ih]
      simp only [List.cons_append]
      refine congrArg (r :: ·) (congrArg _ ?_)
      apply freshRows_congr
      intro x
      simp only [List.mem_cons, List.mem_append]
      tauto

theorem mem_freshRows : ∀ (l s : List CodeRow) (x : CodeRow),
    x ∈ freshRows s l ↔ x ∈ l ∧ x ∉ s
  | [], s, x => by simp [freshRows]
  | r :: rs, s, x => by
    simp only [freshRows]
    by_cases hr : r ∈ s
    · rw [if_pos hr, mem_freshRows rs s x]
      simp only [List.mem_cons]
      constructor
      · rintro ⟨h1, h2⟩
        exact ⟨Or.inr h1, h2⟩
      · rintro ⟨h1 | h1, h2⟩
        · exact absurd (h1 ▸ hr) h2
        · exact ⟨h1, h2⟩
    · rw [if_neg hr]
      simp only [List.mem_cons, mem_freshRows rs (r :: s) x]
      by_cases hxr : x = r
      · subst hxr
        simp [hr]
      · simp [hxr]

theorem nodup_freshRows : ∀ (l s : List CodeRow), (freshRows s l).Nodup
  | [], _ => by simp [freshRows]
  | r :: rs, s => by
    simp only [freshRows]
    by_cases hr : r ∈ s
    · rw [if_pos hr]
      exact nodup_freshRows rs s
    · rw [if_neg hr]
      refine List.nodup_cons.mpr ⟨fun hmem => ?_, nodup_freshRows rs (r :: s)⟩
      exact ((mem_freshRows rs (r :: s) r).mp hmem).2 (List.mem_cons_self r s)

/-! ### Properties of batching -/

theorem chunksOf_nil (B : Nat) : chunksOf B [] = [] := by
  rw [chunksOf.eq_def]
  simp

theorem chunksOf_eq_cons {B : Nat} {l : List CodeRow} (hl : l ≠ []) (hB : B ≠ 0) :
    chunksOf B l = l.take B :: chunksOf B (l.drop B) := by
  rw [chunksOf.eq_def, dif_neg hl, dif_neg hB]

theorem flatten_chunksOf (B : Nat) (l : List CodeRow) : (chunksOf B l).flatten = l := by
  by_cases hl : l = []
  · subst hl
    simp [chunksOf_nil]
  · by_cases hB : B = 0
    · rw [chunksOf.eq_def, dif_neg hl, dif_pos hB]
      simp
    · rw [chunksOf_eq_cons hl hB]
      have ih := flatten_chunksOf B (l.drop B)
      simp [ih]
termination_by l.length
decreasing_by
  simp only [List.length_drop]
  have := List.length_pos.mpr hl
  omega

theorem length_chunksOf {B : Nat} (hB : B ≠ 0) (l : List CodeRow) :
    (chunksOf B l).length = (l.length + B - 1) / B := by
  by_cases hl : l = []
  · subst hl
    rw [chunksOf_nil]
    simp only [List.length_nil, List.length, Nat.zero_add]
    rw [Nat.div_eq_of_lt (by omega)]
  · rw [chunksOf_eq_cons hl hB]
    have ih := length_chunksOf hB (l.drop B)
    have hpos : 0 < l.length := List.length_pos.mpr hl
    simp only [List.length_cons, ih, List.length_drop]
    rcases le_or_lt l.length B with h | h
    · have h0 : l.length - B = 0 := by omega
      have hr1 : (l.length + B - 1) / B = 1 :=
        Nat.div_eq_of_lt_le (by omega) (by omega)
      rw [h0, Nat.zero_add, Nat.div_eq_of_lt (by omega), hr1]
    · have h1 : l.length - B + B - 1 = l.length - 1 := by omega
      have h2 : l.length + B - 1 = (l.length - 1) + B := by omega
      rw [h1, h2, Nat.add_div_right _ (by omega)]
termination_by l.length
decreasing_by
  simp only [List.length_drop]
  have := List.length_pos.mpr hl
  omega

theorem length_le_of_mem_chunksOf {B : Nat} (hB : B ≠ 0) :
    ∀ {l c : List CodeRow}, c ∈ chunksOf B l → c.length ≤ B := by
  intro l c hc
  by_cases hl : l = []
  · subst hl
    rw [chunksOf_nil] at hc
    exact absurd hc (List.not_mem_nil c)
  · rw [chunksOf_eq_cons hl hB] at hc
    rcases List.mem_cons.mp hc with rfl | hc'
    · simp only [List.length_take]
      omega
    · exact length_le_of_mem_chunksOf hB hc'
termination_by l => l.length
decreasing_by
  simp only [List.length_drop]
  have := List.length_pos.mpr hl
  omega

theorem sublist_of_mem_chunksOf {B : Nat} :
    ∀ {l c : List CodeRow}, c ∈ chunksOf B l → c.Sublist l := by
  intro l c hc
  by_cases hl : l = []
  · subst hl
    rw [chunksOf_nil] at hc
    exact absurd hc (List.not_mem_nil c)
  · by_cases hB : B = 0
    · rw [chunksOf.eq_def, dif_neg hl, dif_pos hB] at hc
      rcases List.mem_cons.mp hc with rfl | hc'
      · exact List.Sublist.refl c
      · exact absurd hc' (List.not_mem_nil c)
    · rw [chunksOf_eq_cons hl hB] at hc
      rcases List.mem_cons.mp hc with rfl | hc'
      · exact List.take_sublist B l
      · exact (sublist_of_mem_chunksOf hc').trans (List.drop_sublist B l)
termination_by l _ => l.length
decreasing_by
  simp only [List.length_drop]
  have := List.length_pos.mpr hl
  omega

theorem nodup_of_mem_chunksOf {B : Nat} {l c : List CodeRow} (hnd : l.Nodup)
    (hc : c ∈ chunksOf B l) : c.Nodup :=
  List.Nodup.sublist (sublist_of_mem_chunksOf hc) hnd

/-! ### Properties of insert execution -/

theorem insertBatch_schema (t : BQTable) (b : List CodeRow) :
    (insertBatch t b).schema = t.schema := rfl

theorem insertBatch_clustering (t : BQTable) (b : List CodeRow) :
    (insertBatch t b).clustering_fields = t.clustering_fields := rfl

theorem mem_insertBatch {t : BQTable} {b : List CodeRow} {x : CodeRow} :
    x ∈ (insertBatch t b).rows ↔ x ∈ t.rows ∨ x ∈ b := by
  simp only [insertBatch, List.mem_append, List.mem_filter, decide_eq_true_eq]
  tauto

theorem insertBatch_of_subset {t : BQTable} {b : List CodeRow}
    (h : ∀ x ∈ b, x ∈ t.rows) : insertBatch t b = t := by
  have hf : (b.filter fun r => decide (r ∉ t.rows)) = [] := by
    rw [List.filter_eq_nil_iff]
    intro a ha
    simp [h a ha]
  rw [insertBatch, hf, List.append_nil]

theorem applyBatches_nil (t : BQTable) : applyBatches t [] = t := rfl

theorem applyBatches_cons (t : BQTable) (b : List CodeRow) (bs : List (List CodeRow)) :
    applyBatches t (b :: bs) = applyBatches (insertBatch t b) bs := rfl

theorem applyBatches_schema (bs : List (List CodeRow)) :
    ∀ t, (applyBatches t bs).schema = t.schema := by
  induction bs with
  | nil => intro t; rfl
  | cons b bs ih =>
    intro t
    rw [applyBatches_cons, ih, insertBatch_schema]

theorem applyBatches_clustering (bs : List (List CodeRow)) :
    ∀ t, (applyBatches t bs).clustering_fields = t.clustering_fields := by
  induction bs with
  | nil => intro t; rfl
  | cons b bs ih =>
    intro t
    rw [applyBatches_cons, ih, insertBatch_clustering]

theorem mem_applyBatches {bs : List (List CodeRow)} :
    ∀ {t : BQTable} {x : CodeRow},
      x ∈ (applyBatches t bs).rows ↔ x ∈ t.rows ∨ x ∈ bs.flatten := by
  induction bs with
  | nil =>
    intro t x
    simp [applyBatches_nil]
  | cons b bs ih =>
    intro t x
    rw [applyBatches_cons, ih, mem_insertBatch]
    simp only [List.flatten_cons, List.mem_append]
    tauto

theorem applyBatches_of_subset {bs : List (List CodeRow)} {t : BQTable}
    (h : ∀ x ∈ bs.flatten, x ∈ t.rows) : applyBatches t bs = t := by
  induction bs with
  | nil => rfl
  | cons b bs ih =>
    rw [applyBatches_cons, insertBatch_of_subset fun x hx =>
      h x (by simp [List.flatten_cons, hx])]
    exact ih fun x hx => h x (by simp [List.flatten_cons, hx])

/-- Executing a list of batches appends a block of new rows: the rows already
present are kept verbatim in place, none of the appended rows was previously
present, every appended row comes from some batch, and if the batch rows are
pairwise distinct the appended block is duplicate-free. -/
theorem applyBatches_decomp (bs : List (List CodeRow)) :
    ∀ t : BQTable, ∃ new : List CodeRow,
      (applyBatches t bs).rows = t.rows ++ new ∧
      (∀ x ∈ new, x ∉ t.rows) ∧
      (∀ x ∈ new, x ∈ bs.flatten) ∧
      (bs.flatten.Nodup → new.Nodup) := by
  induction bs with
  | nil =>
    intro t
    exact ⟨[], by simp [applyBatches_nil], by simp, by simp, by simp⟩
  | cons b bs ih =>
    intro t
    obtain ⟨new', h1, h2, h3, h4⟩ := ih (insertBatch t b)
    refine ⟨(b.filter fun r => decide (r ∉ t.rows)) ++ new', ?_, ?_, ?_, ?_⟩
    · rw [applyBatches_cons, h1]
      simp [insertBatch, List.append_assoc]
    · intro x hx
      rcases List.mem_append.mp hx with hx | hx
      · have := (List.mem_filter.mp hx).2
        simpa using this
      · intro hxt
        exact h2 x hx (mem_insertBatch.mpr (Or.inl hxt))
    · intro x hx
      rcases List.mem_append.mp hx with hx | hx
      · simp only [List.flatten_cons, List.mem_append]
        exact Or.inl (List.mem_filter.mp hx).1
      · simp only [List.flatten_cons, List.mem_append]
        exact Or.inr (h3 x hx)
    · intro hnd
      simp only [List.flatten_cons] at hnd
      rcases List.nodup_append.mp hnd with ⟨hb, hbs, _⟩
      refine List.Nodup.append (hb.filter _) (h4 hbs) ?_
      intro x hx hx'
      exact h2 x hx' (mem_insertBatch.mpr (Or.inr (List.mem_filter.mp hx).1))

/-! ### Branch equations of the pipeline -/

theorem lazyRun_zero (failAt : Option Nat) (items : List (List Event × ValueSet))
    (buffer seen : List CodeRow) (k : Nat) (t : BQTable) :
    lazyRun 0 failAt items buffer seen k t = ([], t, true) := by
  rw [lazyRun.eq_def, dif_pos rfl]

theorem lazyRun_flush {B : Nat} (failAt : Option Nat)
    (items : List (List Event × ValueSet)) {buffer : List CodeRow}
    (seen : List CodeRow) {k : Nat} (t : BQTable) (hB : B ≠ 0)
    (hbuf : B ≤ buffer.length) (hf : ¬ failAt = some k) :
    lazyRun B failAt items buffer seen k t =
      (Event.insertQuery (buffer.take B) ::
         (lazyRun B failAt items (buffer.drop B) seen (k + 1)
           (insertBatch t (buffer.take B))).1,
       (lazyRun B failAt items (buffer.drop B) seen (k + 1)
         (insertBatch t (buffer.take B))).2) := by
  rw [lazyRun.eq_def, dif_neg hB, dif_pos hbuf, if_neg hf]

theorem lazyRun_flush_fail {B : Nat} (failAt : Option Nat)
    (items : List (List Event × ValueSet)) {buffer : List CodeRow}
    (seen : List CodeRow) {k : Nat} (t : BQTable) (hB : B ≠ 0)
    (hbuf : B ≤ buffer.length) (hf : failAt = some k) :
    lazyRun B failAt items buffer seen k t =
      ([Event.insertQuery (buffer.take B)], t, false) := by
  rw [lazyRun.eq_def, dif_neg hB, dif_pos hbuf, if_pos hf]

theorem lazyRun_nil_nil {B : Nat} (failAt : Option Nat) (seen : List CodeRow)
    (k : Nat) (t : BQTable) (hB : B ≠ 0) :
    lazyRun B failAt [] [] seen k t = ([], t, true) := by
  rw [lazyRun.eq_def, dif_neg hB,
    dif_neg (show ¬ B ≤ ([] : List CodeRow).length by simpa using hB)]
  rfl

theorem lazyRun_final_flush {B : Nat} (failAt : Option Nat) {buffer : List CodeRow}
    (seen : List CodeRow) {k : Nat} (t : BQTable) (hB : B ≠ 0)
    (hbuf : ¬ B ≤ buffer.length) (hne : buffer ≠ []) (hf : ¬ failAt = some k) :
    lazyRun B failAt [] buffer seen k t =
      ([Event.insertQuery buffer], insertBatch t buffer, true) := by
  rw [lazyRun.eq_def, dif_neg hB, dif_neg hbuf]
  simp [hne, hf]

theorem lazyRun_final_flush_fail {B : Nat} (failAt : Option Nat) {buffer : List CodeRow}
    (seen : List CodeRow) {k : Nat} (t : BQTable) (hB : B ≠ 0)
    (hbuf : ¬ B ≤ buffer.length) (hne : buffer ≠ []) (hf : failAt = some k) :
    lazyRun B failAt [] buffer seen k t = ([Event.insertQuery buffer], t, false) := by
  rw [lazyRun.eq_def, dif_neg hB, dif_neg hbuf]
  simp [hne, hf]

theorem lazyRun_pull {B : Nat} (failAt : Option Nat) (p : List Event × ValueSet)
    (rest : List (List Event × ValueSet)) {buffer : List CodeRow}
    (seen : List CodeRow) (k : Nat) (t : BQTable) (hB : B ≠ 0)
    (hbuf : ¬ B ≤ buffer.length) :
    lazyRun B failAt (p :: rest) buffer seen k t =
      (p.1 ++ (lazyRun B failAt rest (buffer ++ freshRows seen p.2.rows)
         (seen ++ freshRows seen p.2.rows) k t).1,
       (lazyRun B failAt rest (buffer ++ freshRows seen p.2.rows)
         (seen ++ freshRows seen p.2.rows) k t).2) := by
  rw [lazyRun.eq_def, dif_neg hB, dif_neg hbuf]

/-! ### Trace helpers -/

theorem itemsRows_nil : itemsRows [] = [] := rfl

theorem itemsRows_cons (p : List Event × ValueSet) (rest : List (List Event × ValueSet)) :
    itemsRows (p :: rest) = p.2.rows ++ itemsRows rest := by
  simp [itemsRows]

theorem insertedBatches_nil : insertedBatches [] = [] := rfl

theorem insertedBatches_cons_insert (b : List CodeRow) (trace : List Event) :
    insertedBatches (Event.insertQuery b :: trace) = b :: insertedBatches trace := rfl

theorem insertedBatches_append (t₁ t₂ : List Event) :
    insertedBatches (t₁ ++ t₂) = insertedBatches t₁ ++ insertedBatches t₂ := by
  simp [insertedBatches]

theorem insertedBatches_eq_nil_of_no_insert {trace : List Event}
    (h : ∀ e ∈ trace, Event.isInsert e = false) : insertedBatches trace = [] := by
  rw [insertedBatches, List.filterMap_eq_nil_iff]
  intro e he
  cases e with
  | insertQuery b => exact absurd (h _ he) (by simp [Event.isInsert])
  | createTableCall => rfl
  | expandUrl _ => rfl
  | expandUrlUsingService _ _ => rfl

/-! ### Characterization of the pipeline -/

/-- Without an injected failure the pipeline succeeds, and the final table is
exactly the result of executing, in order, the batches of the deduplicated
row stream. -/
theorem lazyRun_none_snd {B : Nat} (hB : B ≠ 0)
    (items : List (List Event × ValueSet)) (buffer seen : List CodeRow)
    (k : Nat) (t : BQTable) :
    (lazyRun B none items buffer seen k t).2 =
      (applyBatches t (chunksOf B (buffer ++ freshRows seen (itemsRows items))), true) := by
  by_cases hbuf : B ≤ buffer.length
  · rw [lazyRun_flush none items seen t hB hbuf (by simp)]
    have ih := lazyRun_none_snd hB items (buffer.drop B) seen (k + 1)
      (insertBatch t (buffer.take B))
    have hne : buffer ++ freshRows seen (itemsRows items) ≠ [] := by
      intro hc
      have h1 : buffer = [] := (List.append_eq_nil.mp hc).1
      rw [h1] at hbuf
      exact hB (Nat.le_zero.mp (by simpa using hbuf))
    rw [chunksOf_eq_cons hne hB, List.take_append_of_le_length hbuf,
      List.drop_append_of_le_length hbuf, applyBatches_cons]
    simpa using ih
  · cases items with
    | nil =>
      by_cases hb : buffer = []
      · subst hb
        rw [lazyRun_nil_nil none seen k t hB]
        simp [itemsRows_nil, freshRows, chunksOf_nil, applyBatches_nil]
      · rw [lazyRun_final_flush none seen t hB hbuf hb (by simp)]
        have h1 : buffer ++ freshRows seen (itemsRows []) = buffer := by
          simp [itemsRows_nil, freshRows]
        rw [h1, chunksOf_eq_cons hb hB,
          List.take_of_length_le (by omega), List.drop_eq_nil_of_le (by omega),
          chunksOf_nil, applyBatches_cons, applyBatches_nil]
    | cons p rest =>
      rw [lazyRun_pull none p rest seen k t hB hbuf]
      have ih := lazyRun_none_snd hB rest (buffer ++ freshRows seen p.2.rows)
        (seen ++ freshRows seen p.2.rows) k t
      have hstream :
          (buffer ++ freshRows seen p.2.rows) ++
            freshRows (seen ++ freshRows seen p.2.rows) (itemsRows rest) =
          buffer ++ freshRows seen (itemsRows (p :: rest)) := by
        rw [List.append_assoc, itemsRows_cons, freshRows_append]
      rw [hstream] at ih
      simpa using ih
termination_by (items.length, buffer.length)
decreasing_by
  all_goals
    first
    | (apply Prod.Lex.right; try simp only [List.length_drop]; omega)
    | (apply Prod.Lex.left; try simp only [List.length_cons]; omega)
    | (simp_wf
       first
       | omega
       | (apply Prod.Lex.right; try simp only [List.length_drop]; omega)
       | (apply Prod.Lex.left; try simp only [List.length_cons]; omega)
       | (try simp only [List.length_drop, List.length_cons]; omega))

/-- Without an injected failure, the batches of the executed insert queries
are exactly the chunks of the deduplicated row stream, provided pulling an
item never emits an insert event (as is the case for both public entry
points). -/
theorem lazyRun_none_insertedBatches {B : Nat} (hB : B ≠ 0) :
    ∀ (items : List (List Event × ValueSet)) (buffer seen : List CodeRow)
      (k : Nat) (t : BQTable),
    (∀ q ∈ items, ∀ e ∈ q.1, Event.isInsert e = false) →
    insertedBatches (lazyRun B none items buffer seen k t).1 =
      chunksOf B (buffer ++ freshRows seen (itemsRows items))
  | [], buffer, seen, k, t, hclean => by
    by_cases hbuf : B ≤ buffer.length
    · rw [lazyRun_flush none [] seen t hB hbuf (by simp)]
      have ih := lazyRun_none_insertedBatches hB [] (buffer.drop B) seen (k + 1)
        (insertBatch t (buffer.take B)) hclean
      have hne : buffer ++ freshRows seen (itemsRows []) ≠ [] := by
        intro hc
        have h1 : buffer = [] := (List.append_eq_nil.mp hc).1
        rw [h1] at hbuf
        exact hB (Nat.le_zero.mp (by simpa using hbuf))
      rw [chunksOf_eq_cons hne hB, List.take_append_of_le_length hbuf,
        List.drop_append_of_le_length hbuf]
      simp only [insertedBatches_cons_insert]
      rw [ih]
    · by_cases hb : buffer = []
      · subst hb
        rw [lazyRun_nil_nil none seen k t hB]
        simp [insertedBatches, itemsRows_nil, freshRows, chunksOf_nil]
      · rw [lazyRun_final_flush none seen t hB hbuf hb (by simp)]
        have h1 : buffer ++ freshRows seen (itemsRows []) = buffer := by
          simp [itemsRows_nil, freshRows]
        rw [h1, chunksOf_eq_cons hb hB,
          List.take_of_length_le (by omega), List.drop_eq_nil_of_le (by omega),
          chunksOf_nil]
        simp [insertedBatches]
  | p :: rest, buffer, seen, k, t, hclean => by
    by_cases hbuf : B ≤ buffer.length
    · rw [lazyRun_flush none (p :: rest) seen t hB hbuf (by simp)]
      have ih := lazyRun_none_insertedBatches hB (p :: rest) (buffer.drop B) seen (k + 1)
        (insertBatch t (buffer.take B)) hclean
      have hne : buffer ++ freshRows seen (itemsRows (p :: rest)) ≠ [] := by
        intro hc
        have h1 : buffer = [] := (List.append_eq_nil.mp hc).1
        rw [h1] at hbuf
        exact hB (Nat.le_zero.mp (by simpa using hbuf))
      rw [chunksOf_eq_cons hne hB, List.take_append_of_le_length hbuf,
        List.drop_append_of_le_length hbuf]
      simp only [insertedBatches_cons_insert]
      rw [ih]
    · rw [lazyRun_pull none p rest seen k t hB hbuf]
      have hclean' : ∀ q ∈ rest, ∀ e ∈ q.1, Event.isInsert e = false :=
        fun q hq => hclean q (List.mem_cons_of_mem _ hq)
      have ih := lazyRun_none_insertedBatches hB rest
        (buffer ++ freshRows seen p.2.rows) (seen ++ freshRows seen p.2.rows) k t hclean'
      have hp1 : insertedBatches p.1 = [] :=
        insertedBatches_eq_nil_of_no_insert (hclean p (List.mem_cons_self p rest))
      have hstream :
          (buffer ++ freshRows seen p.2.rows) ++
            freshRows (seen ++ freshRows seen p.2.rows) (itemsRows rest) =
          buffer ++ freshRows seen (itemsRows (p :: rest)) := by
        rw [List.append_assoc, itemsRows_cons, freshRows_append]
      rw [hstream] at ih
      simp only [insertedBatches_append, hp1, List.nil_append]
      rw [ih]
termination_by items buffer _ _ _ _ => (items.length, buffer.length)
decreasing_by
  all_goals
    first
    | (apply Prod.Lex.right; try simp only [List.length_drop]; omega)
    | (apply Prod.Lex.left; try simp only [List.length_cons]; omega)

/-- Without an injected failure, the non-insert events of the trace are
exactly the events emitted by pulling the items, in item order. -/
theorem lazyRun_none_filter {B : Nat} (hB : B ≠ 0) (p : Event → Bool)
    (hp : ∀ b, p (Event.insertQuery b) = false)
    (items : List (List Event × ValueSet)) (buffer seen : List CodeRow)
    (k : Nat) (t : BQTable) :
    (lazyRun B none items buffer seen k t).1.filter p =
      ((items.map Prod.fst).flatten).filter p := by
  by_cases hbuf : B ≤ buffer.length
  · rw [lazyRun_flush none items seen t hB hbuf (by simp)]
    have ih := lazyRun_none_filter hB p hp items (buffer.drop B) seen (k + 1)
      (insertBatch t (buffer.take B))
    simp only [List.filter_cons, hp, ih]
    simp
  · cases items with
    | nil =>
      by_cases hb : buffer = []
      · subst hb
        rw [lazyRun_nil_nil none seen k t hB]
        rfl
      · rw [lazyRun_final_flush none seen t hB hbuf hb (by simp)]
        simp [List.filter_cons, hp]
    | cons p' rest =>
      rw [lazyRun_pull none p' rest seen k t hB hbuf]
      have ih := lazyRun_none_filter hB p hp rest
        (buffer ++ freshRows seen p'.2.rows) (seen ++ freshRows seen p'.2.rows) k t
      simp only [List.map_cons, List.flatten_cons, List.filter_append, ih]
termination_by (items.length, buffer.length)
decreasing_by
  all_goals
    first
    | (apply Prod.Lex.right; try simp only [List.length_drop]; omega)
    | (apply Prod.Lex.left; try simp only [List.length_cons]; omega)
    | (simp_wf
       first
       | omega
       | (apply Prod.Lex.right; try simp only [List.length_drop]; omega)
       | (apply Prod.Lex.left; try simp only [List.length_cons]; omega)
       | (try simp only [List.length_drop, List.length_cons]; omega))

/-- A non-insert event that no item emits never appears in the trace of the
pipeline, whatever the failure point. -/
theorem not_mem_lazyRun {e : Event} (he : Event.isInsert e = false)
    (B : Nat) (failAt : Option Nat) :
    ∀ (items : List (List Event × ValueSet)) (buffer seen : List CodeRow)
      (k : Nat) (t : BQTable),
    (∀ q ∈ items, e ∉ q.1) →
    e ∉ (lazyRun B failAt items buffer seen k t).1
  | items, buffer, seen, k, t => fun hno => by
    by_cases hB : B = 0
    · subst hB
      rw [lazyRun_zero]
      simp
    · by_cases hbuf : B ≤ buffer.length
      · by_cases hf : failAt = some k
        · rw [lazyRun_flush_fail failAt items seen t hB hbuf hf]
          intro hmem
          have heq : e = Event.insertQuery (buffer.take B) :=
            List.mem_singleton.mp hmem
          rw [heq] at he
          simp [Event.isInsert] at he
        · rw [lazyRun_flush failAt items seen t hB hbuf hf]
          have ih := not_mem_lazyRun he B failAt items (buffer.drop B) seen (k + 1)
            (insertBatch t (buffer.take B)) hno
          intro hmem
          rcases List.mem_cons.mp (by simpa using hmem) with heq | hmem'
          · rw [heq] at he
            simp [Event.isInsert] at he
          · exact ih hmem'
      · match items, hno with
        | [], hno => ?_
        | p :: rest, hno => ?_
        case _ =>
          by_cases hb : buffer = []
          · subst hb
            rw [lazyRun_nil_nil failAt seen k t hB]
            simp
          · by_cases hf : failAt = some k
            · rw [lazyRun_final_flush_fail failAt seen t hB hbuf hb hf]
              intro hmem
              have heq : e = Event.insertQuery buffer :=
                List.mem_singleton.mp (by simpa using hmem)
              rw [heq] at he
              simp [Event.isInsert] at he
            · rw [lazyRun_final_flush failAt seen t hB hbuf hb hf]
              intro hmem
              have heq : e = Event.insertQuery buffer :=
                List.mem_singleton.mp (by simpa using hmem)
              rw [heq] at he
              simp [Event.isInsert] at he
        case _ =>
          rw [lazyRun_pull failAt p rest seen k t hB hbuf]
          intro hmem
          rcases List.mem_append.mp (by simpa using hmem) with hmem' | hmem'
          · exact hno p (List.mem_cons_self p rest) hmem'
          · exact not_mem_lazyRun he B failAt rest
              (buffer ++ freshRows seen p.2.rows) (seen ++ freshRows seen p.2.rows) k t
              (fun q hq => hno q (List.mem_cons_of_mem _ hq)) hmem'
termination_by items buffer _ _ _ => (items.length, buffer.length)
decreasing_by
  all_goals
    first
    | (apply Prod.Lex.right; try simp only [List.length_drop]; omega)
    | (apply Prod.Lex.left; try simp only [List.length_cons]; omega)

/-- With a failure injected at query index `kf` (counting from the current
index `k`), and `kf` within the number of batches of the stream: the error
surfaces (`false`), the executed insert queries are exactly the batches up to
and including the failing one, and the final table holds exactly the batches
strictly before the failing one — a strict prefix of the batches is
committed, the remainder is never executed. -/
theorem lazyRun_fail {B : Nat} (hB : B ≠ 0) (kf : Nat) :
    ∀ (items : List (List Event × ValueSet)) (buffer seen : List CodeRow)
      (k : Nat) (t : BQTable),
    (∀ q ∈ items, ∀ e ∈ q.1, Event.isInsert e = false) →
    k ≤ kf →
    kf - k < (chunksOf B (buffer ++ freshRows seen (itemsRows items))).length →
    insertedBatches (lazyRun B (some kf) items buffer seen k t).1 =
        (chunksOf B (buffer ++ freshRows seen (itemsRows items))).take (kf - k + 1) ∧
      (lazyRun B (some kf) items buffer seen k t).2 =
        (applyBatches t
          ((chunksOf B (buffer ++ freshRows seen (itemsRows items))).take (kf - k)),
         false)
  | [], buffer, seen, k, t => fun hclean hk hlt => by
    by_cases hbuf : B ≤ buffer.length
    · have hbne : buffer ≠ [] := by
        intro hc
        rw [hc] at hbuf
        exact hB (Nat.le_zero.mp (by simpa using hbuf))
      have hne : buffer ++ freshRows seen (itemsRows []) ≠ [] :=
        fun hc => hbne (List.append_eq_nil.mp hc).1
      by_cases hkk : kf = k
      · rw [lazyRun_flush_fail (some kf) [] seen t hB hbuf (by rw [hkk])]
        have h0 : kf - k = 0 := by omega
        rw [h0, chunksOf_eq_cons hne hB, List.take_append_of_le_length hbuf]
        constructor
        · simp [insertedBatches]
        · simp [applyBatches_nil]
      · rw [lazyRun_flush (some kf) [] seen t hB hbuf
          (fun hc => hkk (Option.some.inj hc))]
        have hch : chunksOf B (buffer ++ freshRows seen (itemsRows [])) =
            buffer.take B ::
              chunksOf B (buffer.drop B ++ freshRows seen (itemsRows [])) := by
          rw [chunksOf_eq_cons hne hB, List.take_append_of_le_length hbuf,
            List.drop_append_of_le_length hbuf]
        rw [hch] at hlt
        have ih := lazyRun_fail hB kf [] (buffer.drop B) seen (k + 1)
          (insertBatch t (buffer.take B)) hclean (by omega)
          (by simp only [List.length_cons] at hlt; omega)
        have hm : kf - k = (kf - (k + 1)) + 1 := by omega
        rw [hch, hm]
        constructor
        · simp only [insertedBatches_cons_insert, List.take_succ_cons]
          rw [ih.1]
        · simp only [List.take_succ_cons, applyBatches_cons]
          exact ih.2
    · by_cases hb : buffer = []
      · subst hb
        rw [show ([] : List CodeRow) ++ freshRows seen (itemsRows []) = []
            by simp [itemsRows_nil, freshRows], chunksOf_nil] at hlt
        simp at hlt
      · have h1 : buffer ++ freshRows seen (itemsRows []) = buffer := by
          simp [itemsRows_nil, freshRows]
        have hch : chunksOf B (buffer ++ freshRows seen (itemsRows [])) = [buffer] := by
          rw [h1, chunksOf_eq_cons hb hB, List.take_of_length_le (by omega),
            List.drop_eq_nil_of_le (by omega), chunksOf_nil]
        rw [hch] at hlt
        have hkk : kf = k := by
          simp only [List.length_cons, List.length_nil] at hlt
          omega
        rw [lazyRun_final_flush_fail (some kf) seen t hB hbuf hb (by rw [hkk]), hch]
        have h0 : kf - k = 0 := by omega
        rw [h0]
        constructor
        · simp [insertedBatches]
        · simp [applyBatches_nil]
  | p :: rest, buffer, seen, k, t => fun hclean hk hlt => by
    by_cases hbuf : B ≤ buffer.length
    · have hbne : buffer ≠ [] := by
        intro hc
        rw [hc] at hbuf
        exact hB (Nat.le_zero.mp (by simpa using hbuf))
      have hne : buffer ++ freshRows seen (itemsRows (p :: rest)) ≠ [] :=
        fun hc => hbne (List.append_eq_nil.mp hc).1
      by_cases hkk : kf = k
      · rw [lazyRun_flush_fail (some kf) (p :: rest) seen t hB hbuf (by rw [hkk])]
        have h0 : kf - k = 0 := by omega
        rw [h0, chunksOf_eq_cons hne hB, List.take_append_of_le_length hbuf]
        constructor
        · simp [insertedBatches]
        · simp [applyBatches_nil]
      · rw [lazyRun_flush (some kf) (p :: rest) seen t hB hbuf
          (fun hc => hkk (Option.some.inj hc))]
        have hch : chunksOf B (buffer ++ freshRows seen (itemsRows (p :: rest))) =
            buffer.take B ::
              chunksOf B (buffer.drop B ++ freshRows seen (itemsRows (p :: rest))) := by
          rw [chunksOf_eq_cons hne hB, List.take_append_of_le_length hbuf,
            List.drop_append_of_le_length hbuf]
        rw [hch] at hlt
        have ih := lazyRun_fail hB kf (p :: rest) (buffer.drop B) seen (k + 1)
          (insertBatch t (buffer.take B)) hclean (by omega)
          (by simp only [List.length_cons] at hlt; omega)
        have hm : kf - k = (kf - (k + 1)) + 1 := by omega
        rw [hch, hm]
        constructor
        · simp only [insertedBatches_cons_insert, List.take_succ_cons]
          rw [ih.1]
        · simp only [List.take_succ_cons, applyBatches_cons]
          exact ih.2
    · rw [lazyRun_pull (some kf) p rest seen k t hB hbuf]
      have hclean' : ∀ q ∈ rest, ∀ e ∈ q.1, Event.isInsert e = false :=
        fun q hq => hclean q (List.mem_cons_of_mem _ hq)
      have hstream :
          (buffer ++ freshRows seen p.2.rows) ++
            freshRows (seen ++ freshRows seen p.2.rows) (itemsRows rest) =
          buffer ++ freshRows seen (itemsRows (p :: rest)) := by
        rw [List.append_assoc, itemsRows_cons, freshRows_append]
      rw [← hstream] at hlt
      have ih := lazyRun_fail hB kf rest (buffer ++ freshRows seen p.2.rows)
        (seen ++ freshRows seen p.2.rows) k t hclean' hk hlt
      have hp1 : insertedBatches p.1 = [] :=
        insertedBatches_eq_nil_of_no_insert (hclean p (List.mem_cons_self p rest))
      rw [← hstream]
      constructor
      · simp only [insertedBatches_append, hp1, List.nil_append]
        exact ih.1
      · simpa using ih.2
termination_by items buffer _ _ _ => (items.length, buffer.length)
decreasing_by
  all_goals
    first
    | (apply Prod.Lex.right; try simp only [List.length_drop]; omega)
    | (apply Prod.Lex.left; try simp only [List.length_cons]; omega)

/-! ### Bridging the public operations to the pipeline -/

theorem materialize_items_trace (m : BigQueryValueSetManager) (failAt : Option Nat)
    (st : Option BQTable) (items : List (List Event × ValueSet)) (B : Nat) :
    (materialize_items m failAt st items B).trace =
      Event.createTableCall ::
        (lazyRun B failAt items [] [] 0 (create_valueset_codes_table_if_not_exists st)).1 :=
  rfl

theorem materialize_items_table (m : BigQueryValueSetManager) (failAt : Option Nat)
    (st : Option BQTable) (items : List (List Event × ValueSet)) (B : Nat) :
    (materialize_items m failAt st items B).table =
      (lazyRun B failAt items [] [] 0 (create_valueset_codes_table_if_not_exists st)).2.1 :=
  rfl

theorem materialize_items_ok (m : BigQueryValueSetManager) (failAt : Option Nat)
    (st : Option BQTable) (items : List (List Event × ValueSet)) (B : Nat) :
    (materialize_items m failAt st items B).ok =
      (lazyRun B failAt items [] [] 0 (create_valueset_codes_table_if_not_exists st)).2.2 :=
  rfl

theorem materialize_value_sets_eq (m : BigQueryValueSetManager) (failAt : Option Nat)
    (st : Option BQTable) (vss : List ValueSet) (B : Nat) :
    materialize_value_sets m failAt st vss B =
      materialize_items m failAt st (vss.map fun vs => (([] : List Event), vs)) B :=
  rfl

theorem insertedBatches_cons_create (tr : List Event) :
    insertedBatches (Event.createTableCall :: tr) = insertedBatches tr :=
  rfl

theorem expandCalls_cons_create (tr : List Event) :
    expandCalls (Event.createTableCall :: tr) = expandCalls tr := by
  simp [expandCalls, List.filter_cons, Event.isExpand]

theorem itemsRows_map_nil (vss : List ValueSet) :
    itemsRows (vss.map fun vs => (([] : List Event), vs)) = allRows vss := by
  simp only [itemsRows, allRows, List.map_map]
  rfl

theorem flatten_map_singleton {α β : Type} (f : α → β) (l : List α) :
    (l.map fun x => [f x]).flatten = l.map f := by
  induction l with
  | nil => rfl
  | cons a l ih => simp [ih]

theorem itemsRows_map_pair {α : Type} (g : α → List Event) (h : α → ValueSet)
    (l : List α) :
    itemsRows (l.map fun x => (g x, h x)) = allRows (l.map h) := by
  simp only [itemsRows, allRows, List.map_map]
  rfl

theorem materialize_items_nil (m : BigQueryValueSetManager) (failAt : Option Nat)
    (st : Option BQTable) (B : Nat) :
    materialize_items m failAt st [] B =
      ⟨[Event.createTableCall], create_valueset_codes_table_if_not_exists st, true, m⟩ := by
  by_cases hB : B = 0
  · subst hB
    rw [materialize_items, lazyRun_zero]
  · rw [materialize_items, lazyRun_nil_nil _ _ _ _ hB]

/-! ### Claim theorems -/

/-- C3: calling `materialize_value_set_expansion` with a
`terminology_service_url` and an expander that is not a
`TerminologyServiceClient` (i.e. a `ValueSetResolver`) raises `TypeError`
before anything happens: the result is `none` — no trace, no expansion call,
no table creation, no query execution. -/
theorem materialize_value_set_expansion_type_error
    (m : BigQueryValueSetManager) (failAt : Option Nat) (st : Option BQTable)
    (urls : List String) (f : String → ValueSet) (su : String) (B : Nat) :
    materialize_value_set_expansion m failAt st urls
      (Expander.valueSetResolver f) (some su) B = none :=
  rfl

/-- C9: on the empty input, both operations still provision the target table
(the trace is exactly one `createTableCall`), execute zero insert queries and
invoke the expander zero times, and leave the provisioned table unchanged. -/
theorem materialize_empty_input
    : (∀ (m : BigQueryValueSetManager) (failAt : Option Nat) (st : Option BQTable)
        (B : Nat),
        materialize_value_sets m failAt st [] B =
          ⟨[Event.createTableCall], create_valueset_codes_table_if_not_exists st,
           true, m⟩) ∧
      (∀ (m : BigQueryValueSetManager) (failAt : Option Nat) (st : Option BQTable)
        (f : String → ValueSet) (B : Nat),
        materialize_value_set_expansion m failAt st []
            (Expander.valueSetResolver f) none B =
          some ⟨[Event.createTableCall], create_valueset_codes_table_if_not_exists st,
            true, m⟩) ∧
      (∀ (m : BigQueryValueSetManager) (failAt : Option Nat) (st : Option BQTable)
        (fsvc : String → String → ValueSet) (floc : String → ValueSet)
        (su : String) (B : Nat),
        materialize_value_set_expansion m failAt st []
            (Expander.terminologyServiceClient fsvc floc) (some su) B =
          some ⟨[Event.createTableCall], create_valueset_codes_table_if_not_exists st,
            true, m⟩) ∧
      (∀ (m : BigQueryValueSetManager) (failAt : Option Nat) (st : Option BQTable)
        (fsvc : String → String → ValueSet) (floc : String → ValueSet) (B : Nat),
        materialize_value_set_expansion m failAt st []
            (Expander.terminologyServiceClient fsvc floc) none B =
          some ⟨[Event.createTableCall], create_valueset_codes_table_if_not_exists st,
            true, m⟩) := by
  refine ⟨?_, ?_, ?_, ?_⟩
  · intro m failAt st B
    rw [materialize_value_sets_eq, List.map_nil, materialize_items_nil]
  · intro m failAt st f B
    show some (materialize_items m failAt st ([].map fun u : String =>
      ([Event.expandUrl u], f u)) B) = _
    rw [List.map_nil, materialize_items_nil]
  · intro m failAt st fsvc floc su B
    show some (materialize_items m failAt st ([].map fun u : String =>
      ([Event.expandUrlUsingService u su], fsvc u su)) B) = _
    rw [List.map_nil, materialize_items_nil]
  · intro m failAt st fsvc floc B
    show some (materialize_items m failAt st ([].map fun u : String =>
      ([Event.expandUrl u], floc u)) B) = _
    rw [List.map_nil, materialize_items_nil]

/-- C10: the manager's table reference is fixed at construction — a string
identity is resolved against the client's default project exactly once in
`__init__`, an already-resolved reference is stored as given — the
`value_set_codes_table` property returns that stored reference, and neither
public operation ever changes the manager object (so the property returns
the same reference before and after every call). -/
theorem value_set_codes_table_fixed
    : (∀ (p s : String),
        (BigQueryValueSetManager.init p (TableRefInput.str s)).value_set_codes_table =
          TableRef.from_string s p) ∧
      (∀ (p : String) (r : TableRef),
        (BigQueryValueSetManager.init p (TableRefInput.ref r)).value_set_codes_table = r) ∧
      (∀ m : BigQueryValueSetManager,
        m.value_set_codes_table_property = m.value_set_codes_table) ∧
      (∀ (m : BigQueryValueSetManager) (failAt : Option Nat) (st : Option BQTable)
        (items : List (List Event × ValueSet)) (B : Nat),
        (materialize_items m failAt st items B).self = m) ∧
      (∀ (m : BigQueryValueSetManager) (failAt : Option Nat) (st : Option BQTable)
        (vss : List ValueSet) (B : Nat),
        (materialize_value_sets m failAt st vss B).self = m) ∧
      (∀ (m : BigQueryValueSetManager) (failAt : Option Nat) (st : Option BQTable)
        (urls : List String) (f : String → ValueSet) (B : Nat),
        (materialize_value_set_expansion m failAt st urls
            (Expander.valueSetResolver f) none B).map MatResult.self = some m) ∧
      (∀ (m : BigQueryValueSetManager) (failAt : Option Nat) (st : Option BQTable)
        (urls : List String) (fsvc : String → String → ValueSet)
        (floc : String → ValueSet) (tsu : Option String) (B : Nat),
        (materialize_value_set_expansion m failAt st urls
            (Expander.terminologyServiceClient fsvc floc) tsu B).map MatResult.self =
          some m) := by
  refine ⟨fun p s => rfl, fun p r => rfl, fun m => rfl, fun m _ _ _ _ => rfl,
    fun m _ _ _ _ => rfl, fun m _ _ _ _ _ => rfl, ?_⟩
  intro m failAt st urls fsvc floc tsu B
  cases tsu <;> rfl

/-- C7: provisioning contract — if the table is absent it is created with
exactly the four columns `valueseturi STRING REQUIRED`,
`valuesetversion STRING NULLABLE`, `system STRING REQUIRED`,
`code STRING REQUIRED` and clustering key `(valueseturi, code)`, empty; if it
is present it is returned unchanged, with no schema validation or alteration;
and every materialization call — `materialize_value_sets`, and
`materialize_value_set_expansion` in each of its three validation-passing
configurations (resolver without a service URL, service client with one,
service client without one) — provisions the table first (the head of its
trace is the `createTableCall`) and exactly once (exactly one
`createTableCall` in its trace), whatever the failure point. -/
theorem create_table_contract
    : (create_valueset_codes_table_if_not_exists none =
        ⟨[⟨"valueseturi", "STRING", "REQUIRED"⟩,
          ⟨"valuesetversion", "STRING", "NULLABLE"⟩,
          ⟨"system", "STRING", "REQUIRED"⟩,
          ⟨"code", "STRING", "REQUIRED"⟩],
         ["valueseturi", "code"], []⟩) ∧
      (∀ t : BQTable, create_valueset_codes_table_if_not_exists (some t) = t) ∧
      (∀ (m : BigQueryValueSetManager) (failAt : Option Nat) (st : Option BQTable)
        (vss : List ValueSet) (B : Nat),
        (materialize_value_sets m failAt st vss B).trace.head? =
          some Event.createTableCall) ∧
      (∀ (m : BigQueryValueSetManager) (failAt : Option Nat) (st : Option BQTable)
        (vss : List ValueSet) (B : Nat),
        (materialize_value_sets m failAt st vss B).trace.count Event.createTableCall
          = 1) ∧
      (∀ (m : BigQueryValueSetManager) (failAt : Option Nat) (st : Option BQTable)
        (urls : List String) (f : String → ValueSet) (B : Nat),
        (materialize_value_set_expansion m failAt st urls
            (Expander.valueSetResolver f) none B).map
          (fun r => r.trace.head?) = some (some Event.createTableCall)) ∧
      (∀ (m : BigQueryValueSetManager) (failAt : Option Nat) (st : Option BQTable)
        (urls : List String) (f : String → ValueSet) (B : Nat),
        (materialize_value_set_expansion m failAt st urls
            (Expander.valueSetResolver f) none B).map
          (fun r => r.trace.count Event.createTableCall) = some 1) ∧
      (∀ (m : BigQueryValueSetManager) (failAt : Option Nat) (st : Option BQTable)
        (urls : List String) (fsvc : String → String → ValueSet)
        (floc : String → ValueSet) (su : String) (B : Nat),
        (materialize_value_set_expansion m failAt st urls
            (Expander.terminologyServiceClient fsvc floc) (some su) B).map
          (fun r => r.trace.head?) = some (some Event.createTableCall)) ∧
      (∀ (m : BigQueryValueSetManager) (failAt : Option Nat) (st : Option BQTable)
        (urls : List String) (fsvc : String → String → ValueSet)
        (floc : String → ValueSet) (su : String) (B : Nat),
        (materialize_value_set_expansion m failAt st urls
            (Expander.terminologyServiceClient fsvc floc) (some su) B).map
          (fun r => r.trace.count Event.createTableCall) = some 1) ∧
      (∀ (m : BigQueryValueSetManager) (failAt : Option Nat) (st : Option BQTable)
        (urls : List String) (fsvc : String → String → ValueSet)
        (floc : String → ValueSet) (B : Nat),
        (materialize_value_set_expansion m failAt st urls
            (Expander.terminologyServiceClient fsvc floc) none B).map
          (fun r => r.trace.head?) = some (some Event.createTableCall)) ∧
      (∀ (m : BigQueryValueSetManager) (failAt : Option Nat) (st : Option BQTable)
        (urls : List String) (fsvc : String → String → ValueSet)
        (floc : String → ValueSet) (B : Nat),
        (materialize_value_set_expansion m failAt st urls
            (Expander.terminologyServiceClient fsvc floc) none B).map
          (fun r => r.trace.count Event.createTableCall) = some 1) := by
  have hcount : ∀ (m : BigQueryValueSetManager) (failAt : Option Nat)
      (st : Option BQTable) (items : List (List Event × ValueSet)) (B : Nat),
      (∀ q ∈ items, Event.createTableCall ∉ q.1) →
      (materialize_items m failAt st items B).trace.count Event.createTableCall = 1 := by
    intro m failAt st items B hno
    rw [materialize_items_trace, List.count_cons_self]
    have hmem := not_mem_lazyRun
      (show Event.isInsert Event.createTableCall = false from rfl) B failAt items
      [] [] 0 (create_valueset_codes_table_if_not_exists st) hno
    rw [List.count_eq_zero.mpr hmem]
  refine ⟨rfl, fun t => rfl, fun m _ _ _ _ => rfl, ?_,
    fun m _ _ _ _ _ => rfl, ?_,
    fun m _ _ _ _ _ _ _ => rfl, ?_,
    fun m _ _ _ _ _ _ => rfl, ?_⟩
  · intro m failAt st vss B
    rw [materialize_value_sets_eq]
    refine hcount m failAt st _ B ?_
    intro q hq
    rcases List.mem_map.mp hq with ⟨vs, _, rfl⟩
    simp
  · intro m failAt st urls f B
    show (some (materialize_items m failAt st
      (urls.map fun u => ([Event.expandUrl u], f u)) B)).map
        (fun r => r.trace.count Event.createTableCall) = some 1
    refine congrArg some (hcount m failAt st _ B ?_)
    intro q hq
    rcases List.mem_map.mp hq with ⟨u, _, rfl⟩
    simp
  · intro m failAt st urls fsvc floc su B
    show (some (materialize_items m failAt st
      (urls.map fun u => ([Event.expandUrlUsingService u su], fsvc u su)) B)).map
        (fun r => r.trace.count Event.createTableCall) = some 1
    refine congrArg some (hcount m failAt st _ B ?_)
    intro q hq
    rcases List.mem_map.mp hq with ⟨u, _, rfl⟩
    simp
  · intro m failAt st urls fsvc floc B
    show (some (materialize_items m failAt st
      (urls.map fun u => ([Event.expandUrl u], floc u)) B)).map
        (fun r => r.trace.count Event.createTableCall) = some 1
    refine congrArg some (hcount m failAt st _ B ?_)
    intro q hq
    rcases List.mem_map.mp hq with ⟨u, _, rfl⟩
    simp

theorem create_table_some (t : BQTable) :
    create_valueset_codes_table_if_not_exists (some t) = t := rfl

/-- C1: idempotence of `materialize_value_sets` — running it a second time
with the same input over the table produced by the first run leaves the
table's rows exactly as they were; and the first run only appends a block of
rows that is duplicate-free and disjoint from the rows already present, so no
duplicate `(uri, version, system, code)` tuple is ever inserted and
pre-existing rows are never inserted again or rewritten. -/
theorem materialize_value_sets_idempotent
    (m : BigQueryValueSetManager) (st : Option BQTable)
    (vss : List ValueSet) (B : Nat) :
    (materialize_value_sets m none
        (some (materialize_value_sets m none st vss B).table) vss B).table.rows =
      (materialize_value_sets m none st vss B).table.rows ∧
    ∃ new : List CodeRow,
      (materialize_value_sets m none st vss B).table.rows =
        (create_valueset_codes_table_if_not_exists st).rows ++ new ∧
      new.Nodup ∧
      ∀ x ∈ new, x ∉ (create_valueset_codes_table_if_not_exists st).rows := by
  by_cases hB : B = 0
  · subst hB
    have h1 : ∀ st', (materialize_value_sets m none st' vss 0).table =
        create_valueset_codes_table_if_not_exists st' := by
      intro st'
      rw [materialize_value_sets_eq, materialize_items_table, lazyRun_zero]
    constructor
    · rw [h1 (some (materialize_value_sets m none st vss 0).table)]
      rfl
    · exact ⟨[], by rw [h1 st, List.append_nil], List.nodup_nil, by simp⟩
  · have hrun : ∀ st', (materialize_value_sets m none st' vss B).table =
        applyBatches (create_valueset_codes_table_if_not_exists st')
          (chunksOf B (freshRows [] (allRows vss))) := by
      intro st'
      have h := lazyRun_none_snd hB (vss.map fun vs => (([] : List Event), vs))
        [] [] 0 (create_valueset_codes_table_if_not_exists st')
      rw [List.nil_append, itemsRows_map_nil] at h
      rw [materialize_value_sets_eq, materialize_items_table, h]
    constructor
    · have hsubset : ∀ x ∈ (chunksOf B (freshRows [] (allRows vss))).flatten,
          x ∈ (materialize_value_sets m none st vss B).table.rows := by
        intro x hx
        rw [hrun st]
        exact mem_applyBatches.mpr (Or.inr hx)
      have h2 := hrun (some (materialize_value_sets m none st vss B).table)
      rw [create_table_some] at h2
      rw [h2, applyBatches_of_subset hsubset]
    · obtain ⟨new, hdec, hnotin, hsub, hnd⟩ :=
        applyBatches_decomp (chunksOf B (freshRows [] (allRows vss)))
          (create_valueset_codes_table_if_not_exists st)
      refine ⟨new, ?_, ?_, hnotin⟩
      · rw [hrun st]
        exact hdec
      · refine hnd ?_
        rw [flatten_chunksOf]
        exact nodup_freshRows _ _

/-- C2: for every input and positive batch size `B`, `materialize_value_sets`
issues at most `⌈distinct_rows / B⌉` insert queries — where `distinct_rows`
counts the distinct rows of the input's expansions — and no single insert
query carries more than `B` rows. -/
theorem materialize_value_sets_batch_bound
    (m : BigQueryValueSetManager) (st : Option BQTable) (vss : List ValueSet)
    (B : Nat) (hB : 0 < B) :
    (insertedBatches (materialize_value_sets m none st vss B).trace).length ≤
        ((freshRows [] (allRows vss)).length + B - 1) / B ∧
      ∀ b ∈ insertedBatches (materialize_value_sets m none st vss B).trace,
        b.length ≤ B := by
  have hins : insertedBatches (materialize_value_sets m none st vss B).trace =
      chunksOf B (freshRows [] (allRows vss)) := by
    rw [materialize_value_sets_eq, materialize_items_trace, insertedBatches_cons_create]
    have hBne : B ≠ 0 := by omega
    have h := lazyRun_none_insertedBatches hBne
      (vss.map fun vs => (([] : List Event), vs)) [] [] 0
      (create_valueset_codes_table_if_not_exists st) ?_
    · rw [List.nil_append, itemsRows_map_nil] at h
      exact h
    · intro q hq
      rcases List.mem_map.mp hq with ⟨vs, _, rfl⟩
      simp
  rw [hins]
  constructor
  · exact le_of_eq (length_chunksOf (by omega) _)
  · intro b hb
    exact length_le_of_mem_chunksOf (by omega) hb

/-- Witness for C2 at a concrete input: three rows, batch size 2. -/
theorem materialize_value_sets_batch_bound_witness :
    0 < 2 ∧
    ((insertedBatches (materialize_value_sets ⟨"p", ⟨"p", "d", "t"⟩⟩ none none
          [⟨"http://x/vs1", some "1", [("s", "a"), ("s", "b"), ("s", "c")]⟩] 2).trace).length ≤
        ((freshRows [] (allRows
          [⟨"http://x/vs1", some "1", [("s", "a"), ("s", "b"), ("s", "c")]⟩])).length + 2 - 1) / 2 ∧
      ∀ b ∈ insertedBatches (materialize_value_sets ⟨"p", ⟨"p", "d", "t"⟩⟩ none none
          [⟨"http://x/vs1", some "1", [("s", "a"), ("s", "b"), ("s", "c")]⟩] 2).trace,
        b.length ≤ 2) :=
  ⟨by decide,
   materialize_value_sets_batch_bound ⟨"p", ⟨"p", "d", "t"⟩⟩ none
     [⟨"http://x/vs1", some "1", [("s", "a"), ("s", "b"), ("s", "c")]⟩] 2 (by decide)⟩

theorem materialize_value_sets_insertedBatches (m : BigQueryValueSetManager)
    (st : Option BQTable) (vss : List ValueSet) {B : Nat} (hB : B ≠ 0) :
    insertedBatches (materialize_value_sets m none st vss B).trace =
      chunksOf B (freshRows [] (allRows vss)) := by
  rw [materialize_value_sets_eq, materialize_items_trace, insertedBatches_cons_create]
  have h := lazyRun_none_insertedBatches hB
    (vss.map fun vs => (([] : List Event), vs)) [] [] 0
    (create_valueset_codes_table_if_not_exists st) ?_
  · rw [List.nil_append, itemsRows_map_nil] at h
    exact h
  · intro q hq
    rcases List.mem_map.mp hq with ⟨vs, _, rfl⟩
    simp

/-- A shared concrete input: one ValueSet whose expansion repeats the pair
`("sys1", "a")` and also contains `("sys2", "b")`. -/
def scenarioValueSet : ValueSet :=
  ⟨"http://x/vs1", some "1", [("sys1", "a"), ("sys1", "a"), ("sys2", "b")]⟩

/-- A shared concrete manager for witnesses. -/
def witnessManager : BigQueryValueSetManager :=
  ⟨"p", ⟨"p", "d", "t"⟩⟩

/-- C4: duplicate rows in one ValueSet's expansion are collapsed before
insertion — every executed insert query carries a duplicate-free batch — and
in particular the spec's scenario holds: materializing
`{uri: "http://x/vs1", version: "1", codes: [(sys1,a),(sys1,a),(sys2,b)]}`
with batch size 500 into an absent table yields exactly the two rows
`("http://x/vs1","1","sys1","a")` and `("http://x/vs1","1","sys2","b")`. -/
theorem materialize_value_sets_collapses_duplicates
    : (∀ (m : BigQueryValueSetManager) (st : Option BQTable) (vss : List ValueSet)
        (B : Nat) (b : List CodeRow),
        b ∈ insertedBatches (materialize_value_sets m none st vss B).trace →
        b.Nodup) ∧
      (∀ m : BigQueryValueSetManager,
        (materialize_value_sets m none none [scenarioValueSet] 500).table.rows =
          [⟨"http://x/vs1", some "1", "sys1", "a"⟩,
           ⟨"http://x/vs1", some "1", "sys2", "b"⟩]) := by
  constructor
  · intro m st vss B b hb
    by_cases hB : B = 0
    · subst hB
      rw [materialize_value_sets_eq, materialize_items_trace, lazyRun_zero,
        insertedBatches_cons_create] at hb
      simp [insertedBatches] at hb
    · rw [materialize_value_sets_insertedBatches m st vss hB] at hb
      exact nodup_of_mem_chunksOf (nodup_freshRows _ _) hb
  · intro m
    simp [materialize_value_sets, materialize_items, lazyRun, freshRows, insertBatch,
      create_valueset_codes_table_if_not_exists, ValueSet.rows, scenarioValueSet]

/-- Witness for C4: the single batch the scenario executes is exactly the
collapsed two-row batch, and it is duplicate-free. -/
theorem materialize_value_sets_collapses_duplicates_witness
    : ([⟨"http://x/vs1", some "1", "sys1", "a"⟩,
        ⟨"http://x/vs1", some "1", "sys2", "b"⟩] ∈
        insertedBatches (materialize_value_sets witnessManager none none
          [scenarioValueSet] 500).trace) ∧
      List.Nodup [(⟨"http://x/vs1", some "1", "sys1", "a"⟩ : CodeRow),
        ⟨"http://x/vs1", some "1", "sys2", "b"⟩] := by
  have hmem : [(⟨"http://x/vs1", some "1", "sys1", "a"⟩ : CodeRow),
      ⟨"http://x/vs1", some "1", "sys2", "b"⟩] ∈
      insertedBatches (materialize_value_sets witnessManager none none
        [scenarioValueSet] 500).trace := by
    simp [materialize_value_sets, materialize_items, lazyRun, freshRows, insertBatch,
      create_valueset_codes_table_if_not_exists, ValueSet.rows, scenarioValueSet,
      insertedBatches, witnessManager]
  exact ⟨hmem,
    materialize_value_sets_collapses_duplicates.1 witnessManager none
      [scenarioValueSet] 500 _ hmem⟩

theorem materialize_value_sets_fail_char (m : BigQueryValueSetManager)
    (st : Option BQTable) (vss : List ValueSet) {B kf : Nat} (hB : B ≠ 0)
    (hlt : kf < (chunksOf B (freshRows [] (allRows vss))).length) :
    insertedBatches (materialize_value_sets m (some kf) st vss B).trace =
        (chunksOf B (freshRows [] (allRows vss))).take (kf + 1) ∧
      (materialize_value_sets m (some kf) st vss B).table =
        applyBatches (create_valueset_codes_table_if_not_exists st)
          ((chunksOf B (freshRows [] (allRows vss))).take kf) ∧
      (materialize_value_sets m (some kf) st vss B).ok = false := by
  have h := lazyRun_fail hB kf (vss.map fun vs => (([] : List Event), vs)) [] [] 0
    (create_valueset_codes_table_if_not_exists st)
    (by
      intro q hq
      rcases List.mem_map.mp hq with ⟨vs, _, rfl⟩
      simp)
    (Nat.zero_le kf)
    (by rw [List.nil_append, itemsRows_map_nil]; simpa using hlt)
  rw [List.nil_append, itemsRows_map_nil, Nat.sub_zero] at h
  refine ⟨?_, ?_, ?_⟩
  · rw [materialize_value_sets_eq, materialize_items_trace, insertedBatches_cons_create]
    exact h.1
  · rw [materialize_value_sets_eq, materialize_items_table, h.2]
  · rw [materialize_value_sets_eq, materialize_items_ok, h.2]

/-- C5: if the insert query of batch `kf` fails, the run reports the error
(`ok = false`), the executed insert queries are exactly the batches up to and
including `kf` (no later batch is ever executed), the final table holds
exactly the batches before `kf` — in particular every row of an earlier batch
is present, and no fresh row of a batch after `kf` is present. -/
theorem materialize_value_sets_failure_visibility
    (m : BigQueryValueSetManager) (st : Option BQTable) (vss : List ValueSet)
    (B kf : Nat) (hB : 0 < B)
    (hlt : kf < (chunksOf B (freshRows [] (allRows vss))).length) :
    (materialize_value_sets m (some kf) st vss B).ok = false ∧
    insertedBatches (materialize_value_sets m (some kf) st vss B).trace =
      (chunksOf B (freshRows [] (allRows vss))).take (kf + 1) ∧
    (materialize_value_sets m (some kf) st vss B).table =
      applyBatches (create_valueset_codes_table_if_not_exists st)
        ((chunksOf B (freshRows [] (allRows vss))).take kf) ∧
    (∀ b ∈ (chunksOf B (freshRows [] (allRows vss))).take kf, ∀ x ∈ b,
        x ∈ (materialize_value_sets m (some kf) st vss B).table.rows) ∧
    (∀ x ∈ ((chunksOf B (freshRows [] (allRows vss))).drop (kf + 1)).flatten,
        x ∉ (create_valueset_codes_table_if_not_exists st).rows →
        x ∉ (materialize_value_sets m (some kf) st vss B).table.rows) := by
  obtain ⟨hins, htab, hok⟩ :=
    materialize_value_sets_fail_char m st vss (by omega) hlt
  refine ⟨hok, hins, htab, ?_, ?_⟩
  · intro b hb x hx
    rw [htab]
    refine mem_applyBatches.mpr (Or.inr ?_)
    exact List.mem_flatten.mpr ⟨b, hb, hx⟩
  · intro x hx hx0
    rw [htab]
    intro hmem
    rcases mem_applyBatches.mp hmem with h | h
    · exact hx0 h
    · have hnd : ((chunksOf B (freshRows [] (allRows vss))).flatten).Nodup := by
        rw [flatten_chunksOf]
        exact nodup_freshRows _ _
      have hsplit : chunksOf B (freshRows [] (allRows vss)) =
          (chunksOf B (freshRows [] (allRows vss))).take kf ++
            (chunksOf B (freshRows [] (allRows vss))).drop kf :=
        (List.take_append_drop _ _).symm
      rw [hsplit, List.flatten_append] at hnd
      have hdisj := List.disjoint_of_nodup_append hnd
      have hxdrop : x ∈ ((chunksOf B (freshRows [] (allRows vss))).drop kf).flatten := by
        rcases List.mem_flatten.mp hx with ⟨c, hc, hxc⟩
        refine List.mem_flatten.mpr ⟨c, ?_, hxc⟩
        have heq : (chunksOf B (freshRows [] (allRows vss))).drop (kf + 1) =
            ((chunksOf B (freshRows [] (allRows vss))).drop kf).drop 1 := by
          rw [List.drop_drop, Nat.add_comm]
        rw [heq] at hc
        exact List.drop_subset _ _ hc
      exact hdisj h hxdrop

/-- A shared concrete three-row ValueSet for failure witnesses. -/
def threeRowValueSet : ValueSet :=
  ⟨"http://x/vs", none, [("s", "c1"), ("s", "c2"), ("s", "c3")]⟩

/-- Witness for C5: three one-row batches, the second (index 1) fails. -/
theorem materialize_value_sets_failure_visibility_witness
    : (0 < 1 ∧ 1 < (chunksOf 1 (freshRows [] (allRows [threeRowValueSet]))).length) ∧
      ((materialize_value_sets witnessManager (some 1) none [threeRowValueSet] 1).ok
          = false ∧
        insertedBatches
            (materialize_value_sets witnessManager (some 1) none
              [threeRowValueSet] 1).trace =
          (chunksOf 1 (freshRows [] (allRows [threeRowValueSet]))).take (1 + 1) ∧
        (materialize_value_sets witnessManager (some 1) none [threeRowValueSet] 1).table =
          applyBatches (create_valueset_codes_table_if_not_exists none)
            ((chunksOf 1 (freshRows [] (allRows [threeRowValueSet]))).take 1) ∧
        (∀ b ∈ (chunksOf 1 (freshRows [] (allRows [threeRowValueSet]))).take 1,
          ∀ x ∈ b,
          x ∈ (materialize_value_sets witnessManager (some 1) none
            [threeRowValueSet] 1).table.rows) ∧
        (∀ x ∈ ((chunksOf 1 (freshRows [] (allRows [threeRowValueSet]))).drop (1 + 1)).flatten,
          x ∉ (create_valueset_codes_table_if_not_exists none).rows →
          x ∉ (materialize_value_sets witnessManager (some 1) none
            [threeRowValueSet] 1).table.rows)) := by
  have hlen : 1 < (chunksOf 1 (freshRows [] (allRows [threeRowValueSet]))).length := by
    simp [chunksOf, freshRows, allRows, ValueSet.rows, threeRowValueSet]
  exact ⟨⟨by decide, hlen⟩,
    materialize_value_sets_failure_visibility witnessManager none [threeRowValueSet] 1 1
      (by decide) hlen⟩

theorem expandCalls_materialize_items {B : Nat} (hB : B ≠ 0)
    (m : BigQueryValueSetManager) (st : Option BQTable) {α : Type}
    (ev : α → Event) (hev : ∀ x, Event.isExpand (ev x) = true)
    (h : α → ValueSet) (l : List α) :
    expandCalls (materialize_items m none st (l.map fun x => ([ev x], h x)) B).trace =
      l.map ev := by
  rw [materialize_items_trace, expandCalls_cons_create, expandCalls]
  have h3 := lazyRun_none_filter hB Event.isExpand (fun b => rfl)
    (l.map fun x => ([ev x], h x)) [] [] 0 (create_valueset_codes_table_if_not_exists st)
  rw [h3]
  have hflat : ((l.map fun x => ([ev x], h x)).map Prod.fst).flatten = l.map ev := by
    rw [List.map_map]
    exact flatten_map_singleton ev l
  rw [hflat, List.filter_eq_self.mpr]
  intro e he'
  rcases List.mem_map.mp he' with ⟨x, _, rfl⟩
  exact hev x

/-- C6: after validation, each URL is resolved through
`expand_value_set_url_using_service(url, terminology_service_url)` exactly
when a `terminology_service_url` is given (necessarily with a
`TerminologyServiceClient`), and through `expand_value_set_url(url)`
otherwise — including a `TerminologyServiceClient` with no service URL. -/
theorem materialize_value_set_expansion_dispatch (B : Nat) (hB : 0 < B)
    (m : BigQueryValueSetManager) (st : Option BQTable) (urls : List String) :
    (∀ (fsvc : String → String → ValueSet) (floc : String → ValueSet) (su : String),
      ∃ r, materialize_value_set_expansion m none st urls
          (Expander.terminologyServiceClient fsvc floc) (some su) B = some r ∧
        expandCalls r.trace = urls.map fun u => Event.expandUrlUsingService u su) ∧
    (∀ (fsvc : String → String → ValueSet) (floc : String → ValueSet),
      ∃ r, materialize_value_set_expansion m none st urls
          (Expander.terminologyServiceClient fsvc floc) none B = some r ∧
        expandCalls r.trace = urls.map fun u => Event.expandUrl u) ∧
    (∀ f : String → ValueSet,
      ∃ r, materialize_value_set_expansion m none st urls
          (Expander.valueSetResolver f) none B = some r ∧
        expandCalls r.trace = urls.map fun u => Event.expandUrl u) := by
  refine ⟨?_, ?_, ?_⟩
  · intro fsvc floc su
    exact ⟨_, rfl, expandCalls_materialize_items (by omega) m st
      (fun u => Event.expandUrlUsingService u su) (fun u => rfl)
      (fun u => fsvc u su) urls⟩
  · intro fsvc floc
    exact ⟨_, rfl, expandCalls_materialize_items (by omega) m st
      Event.expandUrl (fun u => rfl) floc urls⟩
  · intro f
    exact ⟨_, rfl, expandCalls_materialize_items (by omega) m st
      Event.expandUrl (fun u => rfl) f urls⟩

/-- Witness for C6 at a concrete batch size and URL list. -/
theorem materialize_value_set_expansion_dispatch_witness
    : 0 < 1 ∧
      ((∀ (fsvc : String → String → ValueSet) (floc : String → ValueSet) (su : String),
        ∃ r, materialize_value_set_expansion witnessManager none none ["u1", "u2"]
            (Expander.terminologyServiceClient fsvc floc) (some su) 1 = some r ∧
          expandCalls r.trace = ["u1", "u2"].map fun u => Event.expandUrlUsingService u su) ∧
      (∀ (fsvc : String → String → ValueSet) (floc : String → ValueSet),
        ∃ r, materialize_value_set_expansion witnessManager none none ["u1", "u2"]
            (Expander.terminologyServiceClient fsvc floc) none 1 = some r ∧
          expandCalls r.trace = ["u1", "u2"].map fun u => Event.expandUrl u) ∧
      (∀ f : String → ValueSet,
        ∃ r, materialize_value_set_expansion witnessManager none none ["u1", "u2"]
            (Expander.valueSetResolver f) none 1 = some r ∧
          expandCalls r.trace = ["u1", "u2"].map fun u => Event.expandUrl u)) :=
  ⟨by decide,
   materialize_value_set_expansion_dispatch 1 (by decide) witnessManager none ["u1", "u2"]⟩

/-- A concrete resolver for the interleaving witness: each URL expands to a
one-row ValueSet. -/
def interleaveExpander : String → ValueSet := fun u => ⟨"http://vs/" ++ u, none, [("s", u)]⟩

/-- C8: execution is strictly sequential and lazy.  In general (first
conjunct), a URL-based run executes exactly the batches of the deduplicated
row stream in order and expands the URLs serially in order.  In particular
(second conjunct), with two URLs whose expansions each fill one batch, the
trace interleaves expansion with insertion: the first batch's insert query is
executed before the second URL is expanded, and each insert completes before
the next expansion begins — expansion is not performed up front. -/
theorem materialize_serial_and_lazy
    : (∀ (m : BigQueryValueSetManager) (st : Option BQTable) (urls : List String)
        (f : String → ValueSet) (B : Nat), 0 < B →
        ∃ r, materialize_value_set_expansion m none st urls
            (Expander.valueSetResolver f) none B = some r ∧
          insertedBatches r.trace = chunksOf B (freshRows [] (allRows (urls.map f))) ∧
          expandCalls r.trace = urls.map Event.expandUrl) ∧
      (∀ m : BigQueryValueSetManager,
        materialize_value_set_expansion m none none ["u1", "u2"]
            (Expander.valueSetResolver interleaveExpander) none 1 =
          some ⟨[Event.createTableCall, Event.expandUrl "u1",
                 Event.insertQuery [⟨"http://vs/u1", none, "s", "u1"⟩],
                 Event.expandUrl "u2",
                 Event.insertQuery [⟨"http://vs/u2", none, "s", "u2"⟩]],
                ⟨valuesetCodesSchema, ["valueseturi", "code"],
                 [⟨"http://vs/u1", none, "s", "u1"⟩, ⟨"http://vs/u2", none, "s", "u2"⟩]⟩,
                true, m⟩) := by
  constructor
  · intro m st urls f B hB
    refine ⟨_, rfl, ?_, ?_⟩
    · rw [materialize_items_trace, insertedBatches_cons_create]
      have hBne : B ≠ 0 := by omega
      have h := lazyRun_none_insertedBatches hBne
        (urls.map fun u => ([Event.expandUrl u], f u)) [] [] 0
        (create_valueset_codes_table_if_not_exists st) ?_
      · rw [List.nil_append, itemsRows_map_pair] at h
        exact h
      · intro q hq
        rcases List.mem_map.mp hq with ⟨u, _, rfl⟩
        simp [Event.isInsert]
    · exact expandCalls_materialize_items (by omega) m st
        Event.expandUrl (fun u => rfl) f urls
  · intro m
    simp [materialize_value_set_expansion, materialize_items, lazyRun, freshRows,
      insertBatch, create_valueset_codes_table_if_not_exists, ValueSet.rows,
      interleaveExpander, Expander.isTerminologyServiceClient]

/-- Witness for C8's first conjunct at a concrete input. -/
theorem materialize_serial_and_lazy_witness
    : 0 < 1 ∧
      (∃ r, materialize_value_set_expansion witnessManager none none ["u1", "u2"]
          (Expander.valueSetResolver interleaveExpander) none 1 = some r ∧
        insertedBatches r.trace =
          chunksOf 1 (freshRows [] (allRows (["u1", "u2"].map interleaveExpander))) ∧
        expandCalls r.trace = ["u1", "u2"].map Event.expandUrl) :=
  ⟨by decide,
   materialize_serial_and_lazy.1 witnessManager none ["u1", "u2"] interleaveExpander 1
     (by decide)⟩
